import Mathlib

/-!
Verification of the spgram (spectral periodogram) estimator from
`src/fft/src/spgram.c`.

The estimator state `struct spgram_s` is embedded as the structure `Spgram`.
Scalars (`float`) are modelled as real numbers and complex samples
(`float complex`) as Mathlib complex numbers.  The two external collaborators
that the core only calls are kept abstract parameters:

* `hamming` (from the library's math module, not part of this core): passed
  as a function `ℕ → ℕ → ℝ` giving the taper value `hamming(i, M)`;
* the forward transform engine (`FFT_CREATE_PLAN` / `FFT_EXECUTE`): passed as
  a function `fft : List ℂ → List ℂ` mapping the input array to the output
  array.

The sliding-window buffer (`windowcf`) is an external collaborator whose
source is not part of this core; it is modelled from the spec: capacity-`M`
buffer holding the `M` most recent samples in chronological order, reading
always yields `M` elements (zero-filled before enough samples arrive),
clearing refills it with zeros.
-/

/-- Modelled from the spec: the sliding window buffer collaborator
(`windowcf`).  The buffer is a list of exactly `capacity` complex values;
`windowcf_create`/`windowcf_clear` fill it with zeros. -/
def windowcf_clear (capacity : ℕ) : List ℂ :=
  List.replicate capacity 0

/-- Modelled from the spec: `windowcf_push` appends the new sample and
discards the oldest one (the head of the chronological list). -/
def windowcf_push (buf : List ℂ) (s : ℂ) : List ℂ :=
  buf.drop 1 ++ [s]

/-- The estimator state, `struct spgram_s`.  The transient FFT output array
`X` and the FFT plan `p` are not part of the state: the transform is applied
functionally at the single point where the C code runs `FFT_EXECUTE`. -/
structure Spgram where
  nfft : ℕ            -- FFT length
  M : ℕ               -- number of input samples in FFT
  delay : ℕ           -- number of samples before FFT taken
  alpha : ℝ           -- filter
  buffer : List ℂ     -- input buffer (windowcf)
  x : List ℂ          -- FFT input array
  w : List ℂ          -- tapering window
  psd : List ℝ        -- psd
  num_windows : ℕ     -- number of fft windows accumulated
  index : ℕ           -- stride counter

/-- `spgram_reset`: clear the window buffer and reset the counters. -/
def spgram_reset (q : Spgram) : Spgram :=
  { q with buffer := windowcf_clear q.M, num_windows := 0, index := 0 }

/-- The state assembled by `spgram_create_advanced` after validation:
parameters stored, buffer created, window coefficients
`w[i] = hamming(i, M) / M`, FFT input zero-filled.  The C code leaves the
`psd` allocation uninitialized; it is zero-filled here (no operation ever
reads it before the first transform overwrites it). -/
noncomputable def spgram_init (hamming : ℕ → ℕ → ℝ) (nfft M delay : ℕ)
    (alpha : ℝ) : Spgram where
  nfft := nfft
  M := M
  delay := delay
  alpha := alpha
  buffer := windowcf_clear M
  x := List.replicate nfft 0
  w := (List.range M).map fun i => ((hamming i M / M : ℝ) : ℂ)
  psd := List.replicate nfft 0
  num_windows := 0
  index := 0

/-- `spgram_create_advanced`: validate the four parameters and build the
initial state (the C code reports the error and exits; this is modelled as
`none`).  The final `spgram_reset` call of the C constructor is applied. -/
noncomputable def spgram_create_advanced (hamming : ℕ → ℕ → ℝ)
    (nfft M delay : ℕ) (alpha : ℝ) : Option Spgram :=
  if nfft < 2 then none
  else if nfft < M then none
  else if delay = 0 then none
  else if alpha ≤ 0 ∨ 1 < alpha then none
  else some (spgram_reset (spgram_init hamming nfft M delay alpha))

/-- `spgram_create`: the simple constructor, deriving the window size
`_m = _nfft / 4` and the delay `_delay = _nfft / 8`. -/
noncomputable def spgram_create (hamming : ℕ → ℕ → ℝ) (nfft : ℕ)
    (alpha : ℝ) : Option Spgram :=
  spgram_create_advanced hamming nfft (nfft / 4) (nfft / 8) alpha

/-- The FFT input assembled when a transform fires inside `spgram_push`:
`x[k] = rc[k] * w[k]` for `k < M`, positions `k ∈ [M, nfft)` keep their
previous value (the zeros written at construction). -/
noncomputable def spgram_xin (q : Spgram) (buf : List ℂ) : List ℂ :=
  (List.range q.nfft).map fun k =>
    if k < q.M then buf.getD k 0 * q.w.getD k 0 else q.x.getD k 0

/-- The accumulation step of `spgram_push` over the transform output `X`:
first window is copied (`psd[j] = |X[j]|`), later windows are blended
(`psd[j] = (1 - alpha) * psd[j] + alpha * |X[j]|`). -/
noncomputable def spgram_accum (q : Spgram) (X : List ℂ) : List ℝ :=
  if q.num_windows = 0 then
    (List.range q.nfft).map fun j => Complex.abs (X.getD j 0)
  else
    (List.range q.nfft).map fun j =>
      (1 - q.alpha) * q.psd.getD j 0 + q.alpha * Complex.abs (X.getD j 0)

/-- One iteration of the loop body of `spgram_push`: push the sample into
the buffer, advance the stride counter; when it reaches `delay`, reset it,
build the windowed FFT input, run the transform and accumulate. -/
noncomputable def spgram_step (fft : List ℂ → List ℂ) (q : Spgram)
    (s : ℂ) : Spgram :=
  let buf := windowcf_push q.buffer s
  if q.index + 1 = q.delay then
    let xnew := spgram_xin q buf
    { q with buffer := buf
             index := 0
             x := xnew
             psd := spgram_accum q (fft xnew)
             num_windows := q.num_windows + 1 }
  else
    { q with buffer := buf, index := q.index + 1 }

/-- `spgram_push`: process the input samples in order. -/
noncomputable def spgram_push (fft : List ℂ → List ℂ) (q : Spgram)
    (xs : List ℂ) : Spgram :=
  xs.foldl (spgram_step fft) q

/-- `spgram_execute`: the first component is the estimator state after the
call (the C function writes no field of `_q`; the state passes through
unchanged), the second is the output array `_X`.  With no accumulated
window the output is all zeros; otherwise
`_X[i] = 20 * log10(|psd[(i + nfft/2) % nfft]|)`. -/
noncomputable def spgram_execute (q : Spgram) : Spgram × List ℝ :=
  (q,
   if q.num_windows = 0 then
     List.replicate q.nfft 0
   else
     (List.range q.nfft).map fun i =>
       20 * Real.logb 10 |q.psd.getD ((i + q.nfft / 2) % q.nfft) 0|)

/-- A small concrete estimator state (`nfft = 2`, `M = 1`, `delay = 1`,
`alpha = 1`), exactly the state `spgram_create_advanced` builds for those
parameters with a constant-one taper; used to evaluate the theorems on a
concrete input. -/
def exState : Spgram where
  nfft := 2
  M := 1
  delay := 1
  alpha := 1
  buffer := [0]
  x := [0, 0]
  w := [1]
  psd := [0, 0]
  num_windows := 0
  index := 0

/-- `exState` after one accumulated transform count. -/
def exState1 : Spgram :=
  { exState with num_windows := 1 }

/-- The state built by `spgram_create_advanced (fun _ _ => 1) 2 1 1 1`. -/
noncomputable def exCreated : Spgram :=
  spgram_reset (spgram_init (fun _ _ => 1) 2 1 1 1)

/-! ### List indexing lemmas -/

lemma getD_range_map {α : Type} (n : ℕ) (f : ℕ → α) (d : α) (k : ℕ) :
    ((List.range n).map f).getD k d = if k < n then f k else d := by
  induction n generalizing f k with
  | zero => simp
  | succ n ih =>
    rw [List.range_succ_eq_map]
    cases k with
    | zero => simp
    | succ k =>
      simp only [List.map_cons, List.getD_cons_succ, List.map_map]
      rw [ih]
      simp [Function.comp, Nat.succ_lt_succ_iff]

lemma getD_replicate_self {α : Type} (n k : ℕ) (d : α) :
    (List.replicate n d).getD k d = d := by
  induction n generalizing k with
  | zero => cases k <;> simp
  | succ n ih =>
    cases k with
    | zero => simp
    | succ k => rw [List.replicate_succ, List.getD_cons_succ]; exact ih k

/-! ### Projections of one push iteration -/

lemma spgram_step_fire {fft : List ℂ → List ℂ} {q : Spgram} {s : ℂ}
    (h : q.index + 1 = q.delay) :
    spgram_step fft q s =
      { q with buffer := windowcf_push q.buffer s
               index := 0
               x := spgram_xin q (windowcf_push q.buffer s)
               psd := spgram_accum q
                 (fft (spgram_xin q (windowcf_push q.buffer s)))
               num_windows := q.num_windows + 1 } := by
  simp only [spgram_step]
  rw [if_pos h]

lemma spgram_step_skip {fft : List ℂ → List ℂ} {q : Spgram} {s : ℂ}
    (h : ¬ q.index + 1 = q.delay) :
    spgram_step fft q s =
      { q with buffer := windowcf_push q.buffer s, index := q.index + 1 } := by
  simp only [spgram_step]
  rw [if_neg h]

lemma spgram_step_nfft (fft : List ℂ → List ℂ) (q : Spgram) (s : ℂ) :
    (spgram_step fft q s).nfft = q.nfft := by
  by_cases h : q.index + 1 = q.delay
  · rw [spgram_step_fire h]
  · rw [spgram_step_skip h]

lemma spgram_step_M (fft : List ℂ → List ℂ) (q : Spgram) (s : ℂ) :
    (spgram_step fft q s).M = q.M := by
  by_cases h : q.index + 1 = q.delay
  · rw [spgram_step_fire h]
  · rw [spgram_step_skip h]

lemma spgram_step_delay (fft : List ℂ → List ℂ) (q : Spgram) (s : ℂ) :
    (spgram_step fft q s).delay = q.delay := by
  by_cases h : q.index + 1 = q.delay
  · rw [spgram_step_fire h]
  · rw [spgram_step_skip h]

lemma spgram_step_alpha (fft : List ℂ → List ℂ) (q : Spgram) (s : ℂ) :
    (spgram_step fft q s).alpha = q.alpha := by
  by_cases h : q.index + 1 = q.delay
  · rw [spgram_step_fire h]
  · rw [spgram_step_skip h]

lemma spgram_step_w (fft : List ℂ → List ℂ) (q : Spgram) (s : ℂ) :
    (spgram_step fft q s).w = q.w := by
  by_cases h : q.index + 1 = q.delay
  · rw [spgram_step_fire h]
  · rw [spgram_step_skip h]

lemma spgram_step_buffer (fft : List ℂ → List ℂ) (q : Spgram) (s : ℂ) :
    (spgram_step fft q s).buffer = windowcf_push q.buffer s := by
  by_cases h : q.index + 1 = q.delay
  · rw [spgram_step_fire h]
  · rw [spgram_step_skip h]

lemma spgram_step_index (fft : List ℂ → List ℂ) (q : Spgram) (s : ℂ) :
    (spgram_step fft q s).index =
      if q.index + 1 = q.delay then 0 else q.index + 1 := by
  by_cases h : q.index + 1 = q.delay
  · rw [spgram_step_fire h, if_pos h]
  · rw [spgram_step_skip h, if_neg h]

lemma spgram_step_num_windows (fft : List ℂ → List ℂ) (q : Spgram) (s : ℂ) :
    (spgram_step fft q s).num_windows =
      if q.index + 1 = q.delay then q.num_windows + 1 else q.num_windows := by
  by_cases h : q.index + 1 = q.delay
  · rw [spgram_step_fire h, if_pos h]
  · rw [spgram_step_skip h, if_neg h]

lemma spgram_push_nil (fft : List ℂ → List ℂ) (q : Spgram) :
    spgram_push fft q [] = q := rfl

lemma spgram_push_cons (fft : List ℂ → List ℂ) (q : Spgram) (s : ℂ)
    (xs : List ℂ) :
    spgram_push fft q (s :: xs) = spgram_push fft (spgram_step fft q s) xs :=
  rfl

lemma spgram_push_preserve (fft : List ℂ → List ℂ) (P : Spgram → Prop)
    (hstep : ∀ q s, P q → P (spgram_step fft q s)) :
    ∀ xs (q : Spgram), P q → P (spgram_push fft q xs) := by
  intro xs
  induction xs with
  | nil => intro q h; exact h
  | cons s xs ih => intro q h; exact ih _ (hstep _ _ h)

/-! ### Constructor characterization -/

lemma spgram_init_reset_def (hamming : ℕ → ℕ → ℝ) (nfft M delay : ℕ)
    (alpha : ℝ) :
    spgram_reset (spgram_init hamming nfft M delay alpha) =
      { nfft := nfft, M := M, delay := delay, alpha := alpha,
        buffer := List.replicate M 0, x := List.replicate nfft 0,
        w := (List.range M).map fun i => ((hamming i M / M : ℝ) : ℂ),
        psd := List.replicate nfft 0, num_windows := 0, index := 0 } := rfl

lemma spgram_create_advanced_eq_none {hamming : ℕ → ℕ → ℝ}
    {nfft M delay : ℕ} {alpha : ℝ} :
    spgram_create_advanced hamming nfft M delay alpha = none ↔
      (nfft < 2 ∨ nfft < M ∨ delay = 0 ∨ alpha ≤ 0 ∨ 1 < alpha) := by
  unfold spgram_create_advanced
  split_ifs with h1 h2 h3 h4
  · simpa using Or.inl h1
  · simpa using Or.inr (Or.inl h2)
  · simpa using Or.inr (Or.inr (Or.inl h3))
  · rcases h4 with h | h
    · simpa using Or.inr (Or.inr (Or.inr (Or.inl h)))
    · simpa using Or.inr (Or.inr (Or.inr (Or.inr h)))
  · push_neg at h4
    have hnone : ¬ (nfft < 2 ∨ nfft < M ∨ delay = 0 ∨ alpha ≤ 0 ∨ 1 < alpha) := by
      push_neg
      exact ⟨by omega, by omega, h3, h4.1, h4.2⟩
    simp [hnone]

lemma spgram_create_advanced_some {hamming : ℕ → ℕ → ℝ}
    {nfft M delay : ℕ} {alpha : ℝ} {q : Spgram}
    (h : spgram_create_advanced hamming nfft M delay alpha = some q) :
    q = spgram_reset (spgram_init hamming nfft M delay alpha) ∧
      2 ≤ nfft ∧ M ≤ nfft ∧ delay ≠ 0 ∧ 0 < alpha ∧ alpha ≤ 1 := by
  unfold spgram_create_advanced at h
  split_ifs at h with h1 h2 h3 h4
  push_neg at h1 h2 h4
  exact ⟨(Option.some.inj h).symm, h1, h2, h3, h4.1, h4.2⟩

/-! ### Stride counting -/

lemma spgram_push_counters (fft : List ℂ → List ℂ) (xs : List ℂ) :
    ∀ q : Spgram, q.index < q.delay →
      (spgram_push fft q xs).num_windows
          = q.num_windows + (q.index + xs.length) / q.delay ∧
      (spgram_push fft q xs).index = (q.index + xs.length) % q.delay := by
  induction xs with
  | nil =>
    intro q h
    simp [spgram_push_nil, Nat.div_eq_of_lt h, Nat.mod_eq_of_lt h]
  | cons s xs ih =>
    intro q h
    have hdpos : 0 < q.delay := lt_of_le_of_lt (Nat.zero_le _) h
    have hstep : (spgram_step fft q s).index < (spgram_step fft q s).delay := by
      rw [spgram_step_index, spgram_step_delay]
      split_ifs with hf
      · exact hdpos
      · omega
    rcases ih (spgram_step fft q s) hstep with ⟨hnw, hidx⟩
    rw [spgram_push_cons]
    rw [hnw, hidx, spgram_step_num_windows, spgram_step_index,
      spgram_step_delay, List.length_cons]
    split_ifs with hf
    · have hrw : q.index + (xs.length + 1) = xs.length + q.delay := by omega
      rw [hrw, Nat.add_div_right _ hdpos, Nat.add_mod_right]
      have hz : 0 + xs.length = xs.length := Nat.zero_add _
      rw [hz]
      generalize xs.length / q.delay = t
      omega
    · have hrw : q.index + 1 + xs.length = q.index + (xs.length + 1) := by
        omega
      rw [hrw]
      exact ⟨rfl, rfl⟩

lemma spgram_push_nfft (fft : List ℂ → List ℂ) (xs : List ℂ) (q : Spgram) :
    (spgram_push fft q xs).nfft = q.nfft := by
  have := spgram_push_preserve fft (fun r => r.nfft = q.nfft)
    (fun r s hr => by simp only [spgram_step_nfft]; exact hr) xs q rfl
  exact this

lemma spgram_push_M (fft : List ℂ → List ℂ) (xs : List ℂ) (q : Spgram) :
    (spgram_push fft q xs).M = q.M := by
  have := spgram_push_preserve fft (fun r => r.M = q.M)
    (fun r s hr => by simp only [spgram_step_M]; exact hr) xs q rfl
  exact this

lemma spgram_push_delay (fft : List ℂ → List ℂ) (xs : List ℂ) (q : Spgram) :
    (spgram_push fft q xs).delay = q.delay := by
  have := spgram_push_preserve fft (fun r => r.delay = q.delay)
    (fun r s hr => by simp only [spgram_step_delay]; exact hr) xs q rfl
  exact this

lemma spgram_push_alpha (fft : List ℂ → List ℂ) (xs : List ℂ) (q : Spgram) :
    (spgram_push fft q xs).alpha = q.alpha := by
  have := spgram_push_preserve fft (fun r => r.alpha = q.alpha)
    (fun r s hr => by simp only [spgram_step_alpha]; exact hr) xs q rfl
  exact this

lemma spgram_step_x (fft : List ℂ → List ℂ) (q : Spgram) (s : ℂ) :
    (spgram_step fft q s).x =
      if q.index + 1 = q.delay then
        spgram_xin q (windowcf_push q.buffer s)
      else q.x := by
  by_cases h : q.index + 1 = q.delay
  · rw [spgram_step_fire h, if_pos h]
  · rw [spgram_step_skip h, if_neg h]

lemma spgram_step_psd (fft : List ℂ → List ℂ) (q : Spgram) (s : ℂ) :
    (spgram_step fft q s).psd =
      if q.index + 1 = q.delay then
        spgram_accum q (fft (spgram_xin q (windowcf_push q.buffer s)))
      else q.psd := by
  by_cases h : q.index + 1 = q.delay
  · rw [spgram_step_fire h, if_pos h]
  · rw [spgram_step_skip h, if_neg h]

/-! ### The transform-input tail invariant -/

/-- The transform-input array has length `nfft` and every position at or
beyond `M` holds zero. -/
def xTailZero (q : Spgram) : Prop :=
  q.x.length = q.nfft ∧ ∀ k, q.M ≤ k → q.x.getD k 0 = 0

lemma xTailZero_step (fft : List ℂ → List ℂ) (q : Spgram) (s : ℂ)
    (h : xTailZero q) : xTailZero (spgram_step fft q s) := by
  unfold xTailZero at h ⊢
  rw [spgram_step_x, spgram_step_nfft, spgram_step_M]
  split_ifs with hf
  · constructor
    · unfold spgram_xin; simp
    · intro k hk
      unfold spgram_xin
      rw [getD_range_map]
      split_ifs with hkn hkm
      · exact absurd hkm (not_lt.mpr hk)
      · exact h.2 k hk
      · rfl
  · exact h

lemma xTailZero_push (fft : List ℂ → List ℂ) (xs : List ℂ) (q : Spgram)
    (h : xTailZero q) : xTailZero (spgram_push fft q xs) :=
  spgram_push_preserve fft xTailZero (fun r s hr => xTailZero_step fft r s hr)
    xs q h

lemma xTailZero_reset (q : Spgram) (h : xTailZero q) :
    xTailZero (spgram_reset q) := h

lemma xTailZero_init (hamming : ℕ → ℕ → ℝ) (nfft M delay : ℕ) (alpha : ℝ) :
    xTailZero (spgram_reset (spgram_init hamming nfft M delay alpha)) := by
  rw [spgram_init_reset_def]
  constructor
  · simp
  · intro k hk
    exact getD_replicate_self nfft k 0

/-! ### PSD non-negativity -/

/-- Every PSD entry is non-negative (positions beyond the list default
to zero). -/
def psdNonneg (q : Spgram) : Prop :=
  ∀ k, 0 ≤ q.psd.getD k 0

lemma psdNonneg_step (fft : List ℂ → List ℂ) (q : Spgram) (s : ℂ)
    (ha0 : 0 ≤ q.alpha) (ha1 : q.alpha ≤ 1) (h : psdNonneg q) :
    psdNonneg (spgram_step fft q s) := by
  unfold psdNonneg at h ⊢
  intro k
  rw [spgram_step_psd]
  split_ifs with hf
  · unfold spgram_accum
    split_ifs with hnw
    · rw [getD_range_map]
      split_ifs with hkn
      · exact Complex.abs.nonneg _
      · exact le_refl 0
    · rw [getD_range_map]
      split_ifs with hkn
      · exact add_nonneg (mul_nonneg (by linarith) (h k))
          (mul_nonneg ha0 (Complex.abs.nonneg _))
      · exact le_refl 0
  · exact h k

lemma psdNonneg_push (fft : List ℂ → List ℂ) (xs : List ℂ) (q : Spgram)
    (ha0 : 0 ≤ q.alpha) (ha1 : q.alpha ≤ 1) (h : psdNonneg q) :
    psdNonneg (spgram_push fft q xs) := by
  have hall := spgram_push_preserve fft
    (fun r => 0 ≤ r.alpha ∧ r.alpha ≤ 1 ∧ psdNonneg r)
    (fun r s hr => by
      simp only [spgram_step_alpha]
      have hr' : 0 ≤ r.alpha ∧ r.alpha ≤ 1 ∧ psdNonneg r := hr
      exact ⟨hr'.1, hr'.2.1,
        psdNonneg_step fft r s hr'.1 hr'.2.1 hr'.2.2⟩)
    xs q ⟨ha0, ha1, h⟩
  exact hall.2.2

/-! ### State correspondence (used for the reset/re-push property) -/

/-- Two estimator states that agree on everything a future transform can
observe: the configuration, the window coefficients, the buffer and the
counters; the PSD is required to agree only once a transform has been
accumulated, and the transform input only at the positions `[M, ∞)` that
the next transform reuses. -/
def spgram_rel (q1 q2 : Spgram) : Prop :=
  q1.nfft = q2.nfft ∧ q1.M = q2.M ∧ q1.delay = q2.delay ∧
  q1.alpha = q2.alpha ∧ q1.w = q2.w ∧ q1.buffer = q2.buffer ∧
  q1.index = q2.index ∧ q1.num_windows = q2.num_windows ∧
  (q1.num_windows ≠ 0 → q1.psd = q2.psd) ∧
  (∀ k, q1.M ≤ k → q1.x.getD k 0 = q2.x.getD k 0)

lemma spgram_xin_congr {q1 q2 : Spgram} (buf : List ℂ)
    (hrel : spgram_rel q1 q2) : spgram_xin q1 buf = spgram_xin q2 buf := by
  obtain ⟨hn, hM, hd, ha, hw, hb, hi, hnw, hpsd, hx⟩ := hrel
  unfold spgram_xin
  rw [hn]
  apply List.map_congr_left
  intro k hk
  rw [hM, hw]
  split_ifs with hkm
  · rfl
  · exact hx k (by omega)

lemma spgram_rel_step (fft : List ℂ → List ℂ) {q1 q2 : Spgram} (s : ℂ)
    (h : spgram_rel q1 q2) :
    spgram_rel (spgram_step fft q1 s) (spgram_step fft q2 s) := by
  have hxin := fun buf => spgram_xin_congr buf h
  obtain ⟨hn, hM, hd, ha, hw, hb, hi, hnw, hpsd, hx⟩ := h
  have hbuf : windowcf_push q1.buffer s = windowcf_push q2.buffer s := by
    rw [hb]
  by_cases hf : q1.index + 1 = q1.delay
  · have hf2 : q2.index + 1 = q2.delay := by rw [← hi, ← hd]; exact hf
    rw [spgram_step_fire hf, spgram_step_fire hf2]
    have hxin' : spgram_xin q1 (windowcf_push q1.buffer s)
        = spgram_xin q2 (windowcf_push q2.buffer s) := by
      rw [hbuf]; exact hxin _
    have haccum : spgram_accum q1 (fft (spgram_xin q1 (windowcf_push q1.buffer s)))
        = spgram_accum q2 (fft (spgram_xin q2 (windowcf_push q2.buffer s))) := by
      rw [hxin']
      unfold spgram_accum
      rw [hn, hnw, ha]
      split_ifs with h0
      · rfl
      · rw [hpsd (by rw [hnw]; exact h0)]
    exact ⟨hn, hM, hd, ha, hw, hbuf, rfl, by rw [hnw],
      fun _ => haccum, fun k hk => by rw [hxin']⟩
  · have hf2 : ¬ q2.index + 1 = q2.delay := by rw [← hi, ← hd]; exact hf
    rw [spgram_step_skip hf, spgram_step_skip hf2]
    exact ⟨hn, hM, hd, ha, hw, hbuf, by rw [hi], hnw, hpsd, hx⟩

lemma spgram_rel_push (fft : List ℂ → List ℂ) (xs : List ℂ) :
    ∀ {q1 q2 : Spgram}, spgram_rel q1 q2 →
      spgram_rel (spgram_push fft q1 xs) (spgram_push fft q2 xs) := by
  induction xs with
  | nil => intro q1 q2 h; exact h
  | cons s xs ih => intro q1 q2 h; exact ih (spgram_rel_step fft s h)

lemma spgram_execute_snd (q : Spgram) :
    (spgram_execute q).2 =
      if q.num_windows = 0 then
        List.replicate q.nfft 0
      else
        (List.range q.nfft).map fun i =>
          20 * Real.logb 10 |q.psd.getD ((i + q.nfft / 2) % q.nfft) 0| := rfl

/-! ### The claims -/

/-- C1: during `spgram_push`, an iteration whose stride counter reaches
`delay` performs a transform that updates the PSD from the transform-output
magnitudes: a direct elementwise copy when the transform count is 0, the
blend `(1 - alpha) * psd[j] + alpha * |X[j]|` otherwise; and the transform
count is incremented afterward. -/
theorem spgram_transform_updates_psd (fft : List ℂ → List ℂ) (q : Spgram)
    (s : ℂ) (hfire : q.index + 1 = q.delay) :
    (spgram_step fft q s).num_windows = q.num_windows + 1 ∧
    ∀ j, j < q.nfft →
      (spgram_step fft q s).psd.getD j 0 =
        if q.num_windows = 0 then
          Complex.abs
            ((fft (spgram_xin q (windowcf_push q.buffer s))).getD j 0)
        else
          (1 - q.alpha) * q.psd.getD j 0 +
            q.alpha * Complex.abs
              ((fft (spgram_xin q (windowcf_push q.buffer s))).getD j 0) := by
  constructor
  · rw [spgram_step_num_windows, if_pos hfire]
  · intro j hj
    rw [spgram_step_psd, if_pos hfire]
    unfold spgram_accum
    split_ifs with h0
    · rw [getD_range_map, if_pos hj]
    · rw [getD_range_map, if_pos hj]

theorem spgram_transform_updates_psd_witness :
    (exState.index + 1 = exState.delay) ∧
    ((spgram_step id exState 0).num_windows = exState.num_windows + 1 ∧
     ∀ j, j < exState.nfft →
       (spgram_step id exState 0).psd.getD j 0 =
         if exState.num_windows = 0 then
           Complex.abs
             ((id (spgram_xin exState (windowcf_push exState.buffer 0))).getD j 0)
         else
           (1 - exState.alpha) * exState.psd.getD j 0 +
             exState.alpha * Complex.abs
               ((id (spgram_xin exState (windowcf_push exState.buffer 0))).getD j 0)) :=
  ⟨rfl, spgram_transform_updates_psd id exState 0 rfl⟩

/-- C2: once at least one transform has been accumulated, `spgram_execute`
writes, for each output index `i < nfft`, the value
`20 * log10(|psd[(i + nfft / 2) % nfft]|)` — `nfft / 2` by integer floor
division (also for odd `nfft`), conversion factor 20. -/
theorem spgram_execute_shifted_db (q : Spgram) (h : q.num_windows ≠ 0) :
    (spgram_execute q).2.length = q.nfft ∧
    ∀ i, i < q.nfft →
      (spgram_execute q).2.getD i 0 =
        20 * Real.logb 10 |q.psd.getD ((i + q.nfft / 2) % q.nfft) 0| := by
  rw [spgram_execute_snd, if_neg h]
  constructor
  · simp
  · intro i hi
    rw [getD_range_map, if_pos hi]

theorem spgram_execute_shifted_db_witness :
    (exState1.num_windows ≠ 0) ∧
    ((spgram_execute exState1).2.length = exState1.nfft ∧
     ∀ i, i < exState1.nfft →
       (spgram_execute exState1).2.getD i 0 =
         20 * Real.logb 10
           |exState1.psd.getD ((i + exState1.nfft / 2) % exState1.nfft) 0|) :=
  ⟨by decide, spgram_execute_shifted_db exState1 (by decide)⟩

/-- C3: pushing `n` samples from a reset point (stride counter 0, transform
count 0) performs exactly `n / delay` transforms; after any prefix of the
input the stride counter is the prefix length modulo `delay`, hence always
in `[0, delay)`; and each single iteration either advances the counter by
one, or — exactly when it would reach `delay` — resets it to 0 and fires
the transform. -/
theorem spgram_push_stride_schedule (fft : List ℂ → List ℂ) (q : Spgram)
    (xs : List ℂ) (hd : 0 < q.delay) (hi : q.index = 0)
    (hn : q.num_windows = 0) :
    (spgram_push fft q xs).num_windows = xs.length / q.delay ∧
    (∀ n : ℕ,
      (spgram_push fft q (xs.take n)).index = (xs.take n).length % q.delay) ∧
    (∀ n : ℕ, (spgram_push fft q (xs.take n)).index < q.delay) ∧
    (∀ (r : Spgram) (s : ℂ),
      if r.index + 1 = r.delay then
        (spgram_step fft r s).index = 0 ∧
          (spgram_step fft r s).num_windows = r.num_windows + 1
      else
        (spgram_step fft r s).index = r.index + 1 ∧
          (spgram_step fft r s).num_windows = r.num_windows) ∧
    (∀ (r : Spgram) (as bs : List ℂ),
      spgram_push fft (spgram_push fft r as) bs
        = spgram_push fft r (as ++ bs)) := by
  have hidx : q.index < q.delay := by omega
  refine ⟨?_, ?_, ?_, ?_, ?_⟩
  · rcases spgram_push_counters fft xs q hidx with ⟨hnw, _⟩
    rw [hnw, hi, hn, Nat.zero_add, Nat.zero_add]
  · intro n
    rcases spgram_push_counters fft (xs.take n) q hidx with ⟨_, hix⟩
    rw [hix, hi, Nat.zero_add]
  · intro n
    rcases spgram_push_counters fft (xs.take n) q hidx with ⟨_, hix⟩
    rw [hix]
    exact Nat.mod_lt _ hd
  · intro r s
    split_ifs with hf
    · rw [spgram_step_index, spgram_step_num_windows, if_pos hf, if_pos hf]
      exact ⟨rfl, rfl⟩
    · rw [spgram_step_index, spgram_step_num_windows, if_neg hf, if_neg hf]
      exact ⟨rfl, rfl⟩
  · intro r as bs
    unfold spgram_push
    rw [List.foldl_append]

theorem spgram_push_stride_schedule_witness :
    (0 < exState.delay ∧ exState.index = 0 ∧ exState.num_windows = 0) ∧
    ((spgram_push id exState [0, 0, 0]).num_windows
        = [(0 : ℂ), 0, 0].length / exState.delay ∧
     (∀ n : ℕ,
       (spgram_push id exState ([(0 : ℂ), 0, 0].take n)).index
         = ([(0 : ℂ), 0, 0].take n).length % exState.delay) ∧
     (∀ n : ℕ,
       (spgram_push id exState ([(0 : ℂ), 0, 0].take n)).index
         < exState.delay) ∧
     (∀ (r : Spgram) (s : ℂ),
       if r.index + 1 = r.delay then
         (spgram_step id r s).index = 0 ∧
           (spgram_step id r s).num_windows = r.num_windows + 1
       else
         (spgram_step id r s).index = r.index + 1 ∧
           (spgram_step id r s).num_windows = r.num_windows) ∧
     (∀ (r : Spgram) (as bs : List ℂ),
       spgram_push id (spgram_push id r as) bs
         = spgram_push id r (as ++ bs))) :=
  ⟨⟨by decide, rfl, rfl⟩,
    spgram_push_stride_schedule id exState [0, 0, 0] (by decide) rfl rfl⟩

/-- C4: construction produces no object exactly when `nfft < 2`, or
`M > nfft`, or `delay = 0`, or `alpha` lies outside `(0, 1]`; every
parameter tuple violating none of these yields an estimator. -/
theorem spgram_create_advanced_rejects_iff (hamming : ℕ → ℕ → ℝ)
    (nfft M delay : ℕ) (alpha : ℝ) :
    spgram_create_advanced hamming nfft M delay alpha = none ↔
      (nfft < 2 ∨ M > nfft ∨ delay = 0 ∨ alpha ≤ 0 ∨ alpha > 1) :=
  spgram_create_advanced_eq_none

/-- C5: with transform count 0 the `spgram_execute` output is the all-zero
array of length `nfft`. -/
theorem spgram_execute_zero_output (q : Spgram) (h : q.num_windows = 0) :
    (spgram_execute q).2 = List.replicate q.nfft 0 := by
  rw [spgram_execute_snd, if_pos h]

theorem spgram_execute_zero_output_witness :
    exState.num_windows = 0 ∧
    (spgram_execute exState).2 = List.replicate exState.nfft 0 :=
  ⟨rfl, spgram_execute_zero_output exState rfl⟩

/-- C6: the transform-input tail invariant (`x` has length `nfft` and
positions `[M, nfft)` — indeed all positions at or beyond `M` — hold zero)
is established by construction, preserved by every push and by reset, and
execute does not touch the state at all. -/
theorem spgram_x_tail_permanently_zero :
    (∀ (hamming : ℕ → ℕ → ℝ) (nfft M delay : ℕ) (alpha : ℝ) (q : Spgram),
        spgram_create_advanced hamming nfft M delay alpha = some q →
        xTailZero q) ∧
    (∀ (fft : List ℂ → List ℂ) (q : Spgram) (xs : List ℂ),
        xTailZero q → xTailZero (spgram_push fft q xs)) ∧
    (∀ q : Spgram, xTailZero q → xTailZero (spgram_reset q)) ∧
    (∀ q : Spgram, ((spgram_execute q).1).x = q.x) := by
  refine ⟨?_, ?_, ?_, ?_⟩
  · intro hamming nfft M delay alpha q h
    rcases spgram_create_advanced_some h with ⟨rfl, _⟩
    exact xTailZero_init hamming nfft M delay alpha
  · exact fun fft q xs h => xTailZero_push fft xs q h
  · exact fun q h => xTailZero_reset q h
  · exact fun q => rfl

theorem spgram_x_tail_permanently_zero_witness :
    xTailZero exState ∧ xTailZero (spgram_push id exState [0, 0]) := by
  have hx : xTailZero exState := by
    constructor
    · rfl
    · intro k hk
      match k with
      | 0 => exact absurd hk (by decide)
      | 1 => rfl
      | n + 2 => rfl
  exact ⟨hx, spgram_x_tail_permanently_zero.2.1 id exState [0, 0] hx⟩

/-- C7 as stated is false: the advanced constructor accepts window length
`M = 0` (its validation checks only `M > nfft`, not `M ≥ 1`), producing an
estimator with `M = 0`. -/
theorem spgram_create_advanced_accepts_M_zero :
    spgram_create_advanced (fun _ _ => 0) 2 0 1 1
        = some (spgram_reset (spgram_init (fun _ _ => 0) 2 0 1 1)) ∧
    (spgram_reset (spgram_init (fun _ _ => 0) 2 0 1 1)).M = 0 := by
  constructor
  · unfold spgram_create_advanced
    rw [if_neg (by norm_num), if_neg (by norm_num), if_neg (by norm_num),
      if_neg (by norm_num)]
  · rfl

/-- C7 amended: every accepted configuration satisfies `M ≤ nfft`, and
every configuration accepted by the simple constructor (`M = nfft / 4`,
`delay = nfft / 8`) additionally satisfies `1 ≤ M`; the advanced
constructor, however, accepts `M = 0`. -/
theorem spgram_created_window_bounds :
    (∀ (hamming : ℕ → ℕ → ℝ) (nfft M delay : ℕ) (alpha : ℝ) (q : Spgram),
        spgram_create_advanced hamming nfft M delay alpha = some q →
        q.M ≤ q.nfft) ∧
    (∀ (hamming : ℕ → ℕ → ℝ) (nfft : ℕ) (alpha : ℝ) (q : Spgram),
        spgram_create hamming nfft alpha = some q →
        1 ≤ q.M ∧ q.M ≤ q.nfft) := by
  constructor
  · intro hamming nfft M delay alpha q h
    rcases spgram_create_advanced_some h with ⟨rfl, _, hMn, _⟩
    exact hMn
  · intro hamming nfft alpha q h
    unfold spgram_create at h
    rcases spgram_create_advanced_some h with ⟨rfl, h2, hMn, hd, _⟩
    have h8 : 8 ≤ nfft := by
      by_contra hc
      exact hd (Nat.div_eq_of_lt (by omega))
    constructor
    · show 1 ≤ nfft / 4
      calc 1 ≤ 8 / 4 := by norm_num
        _ ≤ nfft / 4 := Nat.div_le_div_right h8
    · show nfft / 4 ≤ nfft
      exact Nat.div_le_self nfft 4

theorem spgram_created_window_bounds_witness :
    spgram_create (fun _ _ => (0 : ℝ)) 8 1
        = some (spgram_reset (spgram_init (fun _ _ => 0) 8 2 1 1)) ∧
    (1 ≤ (spgram_reset (spgram_init (fun _ _ => (0 : ℝ)) 8 2 1 1)).M ∧
      (spgram_reset (spgram_init (fun _ _ => (0 : ℝ)) 8 2 1 1)).M
        ≤ (spgram_reset (spgram_init (fun _ _ => (0 : ℝ)) 8 2 1 1)).nfft) := by
  have hcreate : spgram_create (fun _ _ => (0 : ℝ)) 8 1
      = some (spgram_reset (spgram_init (fun _ _ => 0) 8 2 1 1)) := by
    unfold spgram_create spgram_create_advanced
    norm_num
  exact ⟨hcreate, spgram_created_window_bounds.2 _ 8 1 _ hcreate⟩

/-- C8: PSD entries are non-negative: construction yields a non-negative
PSD array and a validated `alpha` in `(0, 1]`, and with `0 ≤ alpha ≤ 1`
every push keeps all PSD entries non-negative (the first transform stores
magnitudes, later ones a convex combination); reset also preserves it. -/
theorem spgram_psd_entries_nonneg :
    (∀ (hamming : ℕ → ℕ → ℝ) (nfft M delay : ℕ) (alpha : ℝ) (q : Spgram),
        spgram_create_advanced hamming nfft M delay alpha = some q →
        psdNonneg q ∧ 0 < q.alpha ∧ q.alpha ≤ 1) ∧
    (∀ (fft : List ℂ → List ℂ) (q : Spgram) (xs : List ℂ),
        0 ≤ q.alpha → q.alpha ≤ 1 → psdNonneg q →
        psdNonneg (spgram_push fft q xs)) ∧
    (∀ q : Spgram, psdNonneg q → psdNonneg (spgram_reset q)) := by
  refine ⟨?_, ?_, ?_⟩
  · intro hamming nfft M delay alpha q h
    rcases spgram_create_advanced_some h with ⟨rfl, _, _, _, ha0, ha1⟩
    refine ⟨?_, ha0, ha1⟩
    intro k
    show (0 : ℝ) ≤ (List.replicate nfft (0 : ℝ)).getD k 0
    rw [getD_replicate_self]
  · exact fun fft q xs ha0 ha1 h => psdNonneg_push fft xs q ha0 ha1 h
  · exact fun q h => h

theorem spgram_psd_entries_nonneg_witness :
    (0 ≤ exState.alpha ∧ exState.alpha ≤ 1 ∧ psdNonneg exState) ∧
    psdNonneg (spgram_push id exState [0, 0]) := by
  have h : psdNonneg exState := by
    intro k
    match k with
    | 0 => exact le_refl 0
    | 1 => exact le_refl 0
    | n + 2 => exact le_refl 0
  exact ⟨⟨zero_le_one, le_refl 1, h⟩,
    spgram_psd_entries_nonneg.2.1 id exState [0, 0] zero_le_one (le_refl 1) h⟩

/-- C9: reset clears the sliding buffer and zeroes both the stride counter
and the transform count while leaving every other field (configuration,
window coefficients, transform input, PSD storage) unchanged; and pushing
samples into a reset estimator reproduces, bin for bin, the PSD that an
identically configured freshly constructed estimator computes on the same
samples — in particular the unblended first transform. -/
theorem spgram_reset_restores_construction (hamming : ℕ → ℕ → ℝ)
    (fft : List ℂ → List ℂ) (q : Spgram) :
    ((spgram_reset q).buffer = List.replicate q.M 0 ∧
     (spgram_reset q).index = 0 ∧
     (spgram_reset q).num_windows = 0 ∧
     (spgram_reset q).nfft = q.nfft ∧
     (spgram_reset q).M = q.M ∧
     (spgram_reset q).delay = q.delay ∧
     (spgram_reset q).alpha = q.alpha ∧
     (spgram_reset q).w = q.w ∧
     (spgram_reset q).x = q.x ∧
     (spgram_reset q).psd = q.psd) ∧
    (∀ (q0 : Spgram) (xs : List ℂ),
        spgram_create_advanced hamming q.nfft q.M q.delay q.alpha = some q0 →
        q0.w = q.w →
        (∀ k, q.M ≤ k → q.x.getD k 0 = 0) →
        (spgram_push fft (spgram_reset q) xs).num_windows ≠ 0 →
        (spgram_push fft (spgram_reset q) xs).psd
          = (spgram_push fft q0 xs).psd) := by
  constructor
  · exact ⟨rfl, rfl, rfl, rfl, rfl, rfl, rfl, rfl, rfl, rfl⟩
  · intro q0 xs hq0 hw hx hnw
    rcases spgram_create_advanced_some hq0 with ⟨rfl, _⟩
    have hrel : spgram_rel (spgram_reset q)
        (spgram_reset (spgram_init hamming q.nfft q.M q.delay q.alpha)) := by
      refine ⟨rfl, rfl, rfl, rfl, hw.symm, rfl, rfl, rfl,
        fun h0 => absurd rfl h0, ?_⟩
      intro k hk
      show q.x.getD k 0 = (List.replicate q.nfft (0 : ℂ)).getD k 0
      rw [hx k hk, getD_replicate_self]
    exact (spgram_rel_push fft xs hrel).2.2.2.2.2.2.2.2.1 hnw

theorem spgram_reset_restores_construction_witness :
    (spgram_create_advanced (fun _ _ => 1) exState.nfft exState.M
        exState.delay exState.alpha = some exCreated ∧
     exCreated.w = exState.w ∧
     (∀ k, exState.M ≤ k → exState.x.getD k 0 = 0) ∧
     (spgram_push id (spgram_reset exState) [0]).num_windows ≠ 0) ∧
    (spgram_push id (spgram_reset exState) [0]).psd
      = (spgram_push id exCreated [0]).psd := by
  have hq0 : spgram_create_advanced (fun _ _ => 1) exState.nfft exState.M
      exState.delay exState.alpha = some exCreated := by
    unfold exCreated spgram_create_advanced
    norm_num [exState]
  have hw : exCreated.w = exState.w := by
    unfold exCreated spgram_init spgram_reset exState
    norm_num [List.range_succ]
  have hx : ∀ k, exState.M ≤ k → exState.x.getD k 0 = 0 := by
    intro k hk
    match k with
    | 0 => exact absurd hk (by decide)
    | 1 => rfl
    | n + 2 => rfl
  have hnw : (spgram_push id (spgram_reset exState) [0]).num_windows ≠ 0 := by
    have hc := (spgram_push_counters id [0] (spgram_reset exState)
      (by decide)).1
    rw [hc]
    decide
  exact ⟨⟨hq0, hw, hx, hnw⟩,
    (spgram_reset_restores_construction (fun _ _ => 1) id exState).2
      exCreated [0] hq0 hw hx hnw⟩

/-- C10: `spgram_execute` is a read-only query: the estimator state it
returns is exactly the state it received (the C function writes only the
caller-supplied output array), so two consecutive executes with no
intervening push or reset produce identical output. -/
theorem spgram_execute_read_only (q : Spgram) :
    (spgram_execute q).1 = q ∧
    (spgram_execute ((spgram_execute q).1)).2 = (spgram_execute q).2 :=
  ⟨rfl, rfl⟩
